import Mathlib

/-!
# Boundary-aware pixel sampling and window extraction

A shallow embedding of `src/core/transformations/transformation.cpp`
(class `Transformation`): the edge-resolved pixel accessor `getPixel` with its
three helpers `getPixelCyclic`, `getPixelNull`, `getPixelRepeat`, the
window extractor `getWindow`, the parameter store (`setParameter`,
`getParameter`) and the base `transform`.

Conventions of the embedding.

* C++ `int` values are `Int`. The arithmetic of the source (`x + i`,
  `width - 1`, `a++`) is the exact integer arithmetic; C++ leaves signed
  overflow undefined, so the embedding speaks about the runs without overflow.
  `/` and `%` on `int` truncate towards zero: `Int.tdiv` and `Int.tmod`.
* `image->pixel(x, y)` is `QImage::pixel`. Qt documents its result as
  undefined for a position that is not valid, and the specification says the
  lookup is defined only for in-bounds coordinates. The lookup is therefore
  `Option`-valued: `none` is "no defined colour".
* `math::matrix<double>` is kept as its dimensions and the sequence of cell
  assignments performed on it, in program order; reading a cell yields the
  value of the latest assignment to it. The values stored are `int`s
  (converted exactly to `double`), or `none` when the colour sampled is not
  defined.
-/

namespace MyGimp

/-! ## Qt colour helpers (`qrgb.h`) -/

/-- Qt colour word `QRgb`: an unsigned 32-bit value `0xAARRGGBB`. -/
abbrev QRgb := Nat

/-- Qt `qRgb(r, g, b)`:
`(0xffu << 24) | ((r & 0xffu) << 16) | ((g & 0xffu) << 8) | (b & 0xffu)`.
The four byte fields are disjoint, so the bitwise ors are sums. -/
def qRgb (r g b : Int) : QRgb :=
  255 * 2 ^ 24 + (r % 256).toNat * 2 ^ 16 + (g % 256).toNat * 2 ^ 8 + (b % 256).toNat

/-- Qt `qRed(rgb)`: `(rgb >> 16) & 0xff`. -/
def qRed (rgb : QRgb) : Int := ((rgb / 2 ^ 16 % 256 : Nat) : Int)

/-- Qt `qGreen(rgb)`: `(rgb >> 8) & 0xff`. -/
def qGreen (rgb : QRgb) : Int := ((rgb / 2 ^ 8 % 256 : Nat) : Int)

/-- Qt `qBlue(rgb)`: `rgb & 0xff`. -/
def qBlue (rgb : QRgb) : Int := ((rgb % 256 : Nat) : Int)

/-- Qt `qGray(r, g, b)`: `(r*11 + g*16 + b*5) / 32` with `int` division. -/
def qGrayRGB (r g b : Int) : Int := Int.tdiv (r * 11 + g * 16 + b * 5) 32

/-- Qt `qGray(rgb)`: `qGray(qRed(rgb), qGreen(rgb), qBlue(rgb))`. -/
def qGray (rgb : QRgb) : Int := qGrayRGB (qRed rgb) (qGreen rgb) (qBlue rgb)

/-! ## The image and the enumerations -/

/-- The raster image `PNM` (a `QImage`): its `width()`, its `height()` and the
stored pixels. `data` is consulted only at valid positions. -/
structure PNM where
  width : Int
  height : Int
  data : Int → Int → QRgb

/-- Qt `QImage::valid(x, y)`: the position lies inside the image. -/
def PNM.valid (image : PNM) (x y : Int) : Bool :=
  decide (0 ≤ x) && decide (x < image.width) && decide (0 ≤ y) && decide (y < image.height)

/-- The raw lookup `image->pixel(x, y)`: the stored colour at a valid position, no defined
colour at any other. -/
def PNM.pixel (image : PNM) (x y : Int) : Option QRgb :=
  if image.valid x y then some (image.data x y) else none

/-- Modelled from the spec: the `Mode` enumeration of `transformation.h`, which
is not among the sources. The source names `CyclicEdge`, `NullEdge` and
`RepeatEdge`; the specification closes the set with a fourth member that does
no boundary handling, reached through the `default:` label of `getPixel`. -/
inductive Mode where
  | CyclicEdge
  | NullEdge
  | RepeatEdge
  | Direct
  deriving DecidableEq

/-- Modelled from the spec: the `Channel` enumeration of `transformation.h`,
which is not among the sources; `getWindow` names its four members. -/
inductive Channel where
  | RChannel
  | GChannel
  | BChannel
  | LChannel
  deriving DecidableEq

/-! ## The pixel accessor -/

/-- The method `Transformation::getPixelCyclic`:
`image->pixel(x % image->width(), y % image->width())`.
A zero width makes `%` a division by zero, which yields no colour. -/
def getPixelCyclic (image : PNM) (x y : Int) : Option QRgb :=
  if image.width = 0 then none
  else image.pixel (Int.tmod x image.width) (Int.tmod y image.width)

/-- The method `Transformation::getPixelNull`: black outside the image, the stored pixel
inside. -/
def getPixelNull (image : PNM) (x y : Int) : Option QRgb :=
  if x > image.width - 1 ∨ y > image.height - 1 ∨ x < 0 ∨ y < 0 then
    some (qRgb 0 0 0)
  else
    image.pixel x y

/-- The method `Transformation::getPixelRepeat`: both coordinates are moved to the nearest
edge, then the pixel is read. -/
def getPixelRepeat (image : PNM) (x y : Int) : Option QRgb :=
  let maxX := image.width - 1
  let maxY := image.height - 1
  let x1 := if x < 0 then 0 else if x > maxX then maxX else x
  let y1 := if y < 0 then 0 else if y > maxY then maxY else y
  image.pixel x1 y1

/-- The method `Transformation::getPixel`: dispatch on the mode. -/
def getPixel (image : PNM) (x y : Int) (mode : Mode) : Option QRgb :=
  match mode with
  | Mode.CyclicEdge => getPixelCyclic image x y
  | Mode.NullEdge => getPixelNull image x y
  | Mode.RepeatEdge => getPixelRepeat image x y
  | Mode.Direct => image.pixel x y

/-! ## The matrix -/

/-- A `math::matrix<double>`: the dimensions given to the constructor and the
assignments `m(a, b) = v` made so far, oldest first. -/
structure Matrix where
  rows : Int
  cols : Int
  writes : List ((Int × Int) × Option Int)

/-- The constructor `math::matrix<double> m(rows, cols)`: no cell assigned. -/
def Matrix.create (rows cols : Int) : Matrix :=
  { rows := rows, cols := cols, writes := [] }

/-- The assignment `m(a, b) = v`. -/
def Matrix.set (m : Matrix) (a b : Int) (v : Option Int) : Matrix :=
  { m with writes := m.writes ++ [((a, b), v)] }

/-- The value of cell `(a, b)`: that of the latest assignment to it; `none` for
a cell never assigned (or assigned from a colour that is not defined). -/
def Matrix.get (m : Matrix) (a b : Int) : Option Int :=
  match m.writes.reverse.find? (fun w => decide (w.1 = (a, b))) with
  | some w => w.2
  | none => none

/-- The cells assigned so far, in program order. -/
def Matrix.written (m : Matrix) : List (Int × Int) :=
  m.writes.map Prod.fst

/-! ## The window extractor -/

/-- A `for (int i = start; i < bound; i++)` loop whose body does not assign
`i`, as a state transformer. -/
def forLt {σ : Type} (bound : Int) (body : Int → σ → σ) (i : Int) (s : σ) : σ :=
  if h : i < bound then forLt bound body (i + 1) (body i s) else s
termination_by (bound - i).toNat
decreasing_by omega

/-- A `for (int i = start; i <= bound; i++)` loop whose body does not assign
`i`, as a state transformer. -/
def forLe {σ : Type} (bound : Int) (body : Int → σ → σ) (i : Int) (s : σ) : σ :=
  if h : i ≤ bound then forLe bound body (i + 1) (body i s) else s
termination_by (bound + 1 - i).toNat
decreasing_by omega

/-- The local variables of `getWindow` that its loops update: the matrix
`window` and the cell cursor `a`, `b`. -/
structure WindowState where
  window : Matrix
  a : Int
  b : Int

/-- The body of the inner loop of `getWindow` (the same in both branches): the
`if`/`else if` chain on the channel, then `b++`. -/
def windowCell (image : PNM) (x y : Int) (channel : Channel) (mode : Mode)
    (i j : Int) (s : WindowState) : WindowState :=
  let s1 : WindowState :=
    if channel = Channel.RChannel then
      { s with window := s.window.set s.a s.b ((getPixel image (x + i) (y + j) mode).map qRed) }
    else if channel = Channel.GChannel then
      { s with window := s.window.set s.a s.b ((getPixel image (x + i) (y + j) mode).map qGreen) }
    else if channel = Channel.BChannel then
      { s with window := s.window.set s.a s.b ((getPixel image (x + i) (y + j) mode).map qBlue) }
    else if channel = Channel.LChannel then
      { s with window := s.window.set s.a s.b ((getPixel image (x + i) (y + j) mode).map qGray) }
    else s
  { s1 with b := s1.b + 1 }

/-- The tail of the outer loop body of `getWindow`: `a++; b = 0;`. -/
def nextRow (s : WindowState) : WindowState :=
  { s with a := s.a + 1, b := 0 }

/-- The local `int columnCount = floor(size/2)`: `size/2` is already an `int`. -/
def columnCount (size : Int) : Int := Int.tdiv size 2

/-- The method `Transformation::getWindow` up to its `return`: the final values of
`window`, `a` and `b`. -/
def getWindowState (image : PNM) (x y size : Int) (channel : Channel) (mode : Mode) :
    WindowState :=
  let window := Matrix.create size size
  let columnCount := columnCount size
  let s0 : WindowState := { window := window, a := 0, b := 0 }
  if Int.tmod size 2 = 0 then
    forLt columnCount
      (fun i s => nextRow
        (forLt columnCount (fun j t => windowCell image x y channel mode i j t) (-columnCount) s))
      (-columnCount) s0
  else
    forLe columnCount
      (fun i s => nextRow
        (forLe columnCount (fun j t => windowCell image x y channel mode i j t) (-columnCount) s))
      (-columnCount) s0

/-- The method `Transformation::getWindow`: the matrix returned. -/
def getWindow (image : PNM) (x y size : Int) (channel : Channel) (mode : Mode) : Matrix :=
  (getWindowState image x y size channel mode).window

/-! ## Vocabulary of the statements -/

/-- The scalar `getWindow` stores for a colour: `qRed`, `qGreen`, `qBlue` or
`qGray` according to the channel. -/
def channelOf : Channel → QRgb → Int
  | Channel.RChannel => qRed
  | Channel.GChannel => qGreen
  | Channel.BChannel => qBlue
  | Channel.LChannel => qGray

/-- A loop body applied at `i`, `i + 1`, ... for `n` rounds. -/
def iterFrom {σ : Type} (body : Int → σ → σ) : Nat → Int → σ → σ
  | 0, _, s => s
  | n + 1, i, s => iterFrom body n (i + 1) (body i s)

/-- The assignments of one row: cells `(a, b)`, `(a, b + 1)`, ... filled with
`f j`, `f (j + 1)`, ... for `n` rounds. -/
def rowWrites (f : Int → Option Int) (a : Int) : Nat → Int → Int → List ((Int × Int) × Option Int)
  | 0, _, _ => []
  | n + 1, b, j => ((a, b), f j) :: rowWrites f a n (b + 1) (j + 1)

/-- The assignments of `m` consecutive rows of `n` cells each, starting at row
`a`, row `a + k` filled with `g (i + k) j`, `g (i + k) (j + 1)`, ... -/
def gridWrites (g : Int → Int → Option Int) (n : Nat) (j : Int) :
    Nat → Int → Int → List ((Int × Int) × Option Int)
  | 0, _, _ => []
  | m + 1, a, i => rowWrites (g i) a n 0 j ++ gridWrites g n j m (a + 1) (i + 1)

/-- The 4×4 image of the end-to-end example: white at `(0, 0)`, black
elsewhere. -/
def exampleImage : PNM :=
  { width := 4, height := 4,
    data := fun x y => if x = 0 ∧ y = 0 then qRgb 255 255 255 else qRgb 0 0 0 }

/-- The number of rounds of each loop of `getWindow`: from `-columnCount` up to
`columnCount`, exclusive when `size` is even and inclusive when it is odd. -/
def sideCount (size : Int) : Nat :=
  if Int.tmod size 2 = 0 then (columnCount size - -columnCount size).toNat
  else (columnCount size + 1 - -columnCount size).toNat

/-- The scalar `getWindow` samples at offset `(i, j)` from the centre. -/
def sample (image : PNM) (x y : Int) (channel : Channel) (mode : Mode) (i j : Int) :
    Option Int :=
  (getPixel image (x + i) (y + j) mode).map (channelOf channel)

/-- An image of width 1 and height 2: black at `(0, 0)`, white at `(0, 1)`. -/
def tallImage : PNM :=
  { width := 1, height := 2,
    data := fun _ y => if y = 1 then qRgb 255 255 255 else qRgb 0 0 0 }

/-- An image of width 2 and height 1, all black. -/
def wideImage : PNM :=
  { width := 2, height := 1, data := fun _ _ => qRgb 0 0 0 }

/-! ## The transformation object -/

/-- Qt `QVariant`, as far as the parameter store needs it: the invalid variant
that `QVariant()` constructs, or a valid variant with its payload. -/
inductive QVariant where
  | invalid
  | ofInt (n : Int)
  | ofString (s : String)
  deriving DecidableEq

/-- Qt `QHash<QString, QVariant>`: a table holding at most one value per key,
kept as its entries, newest first. -/
structure QHash where
  entries : List (String × QVariant)

/-- Qt `QHash::insert(key, value)`: an item already stored under the key has
its value replaced. -/
def QHash.insert (h : QHash) (key : String) (value : QVariant) : QHash :=
  { entries := (key, value) :: h.entries.filter (fun e => e.1 != key) }

/-- Qt `QHash::value(key, defaultValue)`: the value stored under the key, or
`defaultValue` when the table has no item with that key. -/
def QHash.value (h : QHash) (key : String) (defaultValue : QVariant) : QVariant :=
  match h.entries.lookup key with
  | some v => v
  | none => defaultValue

/-- The fields of a `Transformation` that the methods below read: the pointer
`image` (`none` is the null pointer) and the table `parameters`. -/
structure Transformation where
  image : Option PNM
  parameters : QHash

/-- The constructor `Transformation::Transformation(PNM* image)`: a fresh empty
parameter table and the image pointer as given. -/
def Transformation.create (image : Option PNM) : Transformation :=
  { image := image, parameters := { entries := [] } }

/-- The method `Transformation::setParameter`: `parameters->insert(param, value)`,
then `return this`. -/
def setParameter (t : Transformation) (param : String) (value : QVariant) : Transformation :=
  { t with parameters := t.parameters.insert param value }

/-- The method `Transformation::getParameter`:
`parameters->value(param, QVariant())`. -/
def getParameter (t : Transformation) (param : String) : QVariant :=
  t.parameters.value param QVariant.invalid

/-- Modelled from the spec: the default constructor `PNM()` of the image class,
which is not among the sources. The docstring of `transform` calls its result
"a new null PNM image" and the specification "an empty image": a null `QImage`,
of width 0 and height 0, with no pixel. -/
def PNM.null : PNM :=
  { width := 0, height := 0, data := fun _ _ => 0 }

/-- The method `Transformation::transform` of the base class: the loaded image
when the pointer is not null, `new PNM()` otherwise. -/
def transform (t : Transformation) : PNM :=
  match t.image with
  | some image => image
  | none => PNM.null

/-! ## Helper lemmas -/

theorem pixel_of_inBounds (image : PNM) (x y : Int) (hx0 : 0 ≤ x) (hx : x < image.width)
    (hy0 : 0 ≤ y) (hy : y < image.height) : image.pixel x y = some (image.data x y) := by
  simp [PNM.pixel, PNM.valid, hx0, hx, hy0, hy]

theorem valid_iff (image : PNM) (x y : Int) :
    image.valid x y = true ↔ 0 ≤ x ∧ x < image.width ∧ 0 ≤ y ∧ y < image.height := by
  simp [PNM.valid, and_assoc]

theorem tmod_of_bounds (x w : Int) (hx0 : 0 ≤ x) (hx : x < w) : Int.tmod x w = x := by
  rw [Int.tmod_eq_emod hx0 (by omega)]
  exact Int.emod_eq_of_lt hx0 hx

theorem tmod_bounds (x w : Int) (hx0 : 0 ≤ x) (hw : 1 ≤ w) :
    0 ≤ Int.tmod x w ∧ Int.tmod x w < w := by
  rw [Int.tmod_eq_emod hx0 (by omega)]
  exact ⟨Int.emod_nonneg _ (by omega), Int.emod_lt_of_pos _ (by omega)⟩

theorem tmod_le_self (y w : Int) (hy0 : 0 ≤ y) (hw : 1 ≤ w) : Int.tmod y w ≤ y := by
  rw [Int.tmod_eq_emod hy0 (by omega)]
  have h1 := Int.emod_add_ediv y w
  have h2 : 0 ≤ y / w := Int.ediv_nonneg hy0 (by omega)
  have h3 : 0 ≤ w * (y / w) := Int.mul_nonneg (by omega) h2
  linarith

theorem getPixelRepeat_eq_clamp (image : PNM) (x y : Int) (hw : 1 ≤ image.width)
    (hh : 1 ≤ image.height) :
    getPixelRepeat image x y
      = image.pixel (min (max x 0) (image.width - 1)) (min (max y 0) (image.height - 1)) := by
  have ex : (if x < 0 then 0 else if x > image.width - 1 then image.width - 1 else x)
      = min (max x 0) (image.width - 1) := by
    split_ifs <;> omega
  have ey : (if y < 0 then 0 else if y > image.height - 1 then image.height - 1 else y)
      = min (max y 0) (image.height - 1) := by
    split_ifs <;> omega
  simp only [getPixelRepeat, ex, ey]

theorem forLt_eq_iterFrom {σ : Type} (bound : Int) (body : Int → σ → σ) (i : Int) (s : σ) :
    forLt bound body i s = iterFrom body (bound - i).toNat i s := by
  generalize hn : (bound - i).toNat = n
  induction n generalizing i s with
  | zero =>
    rw [forLt]
    have h : ¬ i < bound := by omega
    simp only [h, dite_false, iterFrom]
  | succ n ih =>
    rw [forLt]
    have h : i < bound := by omega
    simp only [h, dite_true, iterFrom]
    exact ih (i + 1) (body i s) (by omega)

theorem forLe_eq_iterFrom {σ : Type} (bound : Int) (body : Int → σ → σ) (i : Int) (s : σ) :
    forLe bound body i s = iterFrom body (bound + 1 - i).toNat i s := by
  generalize hn : (bound + 1 - i).toNat = n
  induction n generalizing i s with
  | zero =>
    rw [forLe]
    have h : ¬ i ≤ bound := by omega
    simp only [h, dite_false, iterFrom]
  | succ n ih =>
    rw [forLe]
    have h : i ≤ bound := by omega
    simp only [h, dite_true, iterFrom]
    exact ih (i + 1) (body i s) (by omega)

theorem windowCell_eq (image : PNM) (x y : Int) (channel : Channel) (mode : Mode)
    (i j : Int) (s : WindowState) :
    windowCell image x y channel mode i j s
      = { window := s.window.set s.a s.b (sample image x y channel mode i j),
          a := s.a, b := s.b + 1 } := by
  cases channel <;> rfl

theorem iterFrom_windowCell (image : PNM) (x y : Int) (channel : Channel) (mode : Mode)
    (i : Int) (n : Nat) (j : Int) (s : WindowState) :
    iterFrom (fun j t => windowCell image x y channel mode i j t) n j s
      = { window :=
            { rows := s.window.rows, cols := s.window.cols,
              writes := s.window.writes
                ++ rowWrites (sample image x y channel mode i) s.a n s.b j },
          a := s.a, b := s.b + n } := by
  induction n generalizing j s with
  | zero => simp [iterFrom, rowWrites]
  | succ n ih =>
    simp only [iterFrom, rowWrites]
    rw [ih]
    simp only [windowCell_eq, Matrix.set, List.append_assoc, List.singleton_append]
    congr 1
    push_cast
    omega

theorem iterFrom_rows (image : PNM) (x y : Int) (channel : Channel) (mode : Mode)
    (n : Nat) (j0 : Int) (m : Nat) (i : Int) (s : WindowState) (hb : s.b = 0) :
    iterFrom (fun i s => nextRow
        (iterFrom (fun j t => windowCell image x y channel mode i j t) n j0 s)) m i s
      = { window :=
            { rows := s.window.rows, cols := s.window.cols,
              writes := s.window.writes
                ++ gridWrites (sample image x y channel mode) n j0 m s.a i },
          a := s.a + m, b := 0 } := by
  induction m generalizing i s with
  | zero =>
    cases s with
    | mk w a b =>
      cases w
      simp only at hb
      simp [iterFrom, gridWrites, hb]
  | succ m ih =>
    simp only [iterFrom, gridWrites]
    rw [ih]
    · simp only [iterFrom_windowCell, nextRow, hb, List.append_assoc]
      congr 1
      push_cast
      omega
    · simp [nextRow]

theorem sideCount_of_nonneg (size : Int) (h : 0 ≤ size) : sideCount size = size.toNat := by
  have hd : Int.tdiv size 2 = size / 2 := Int.tdiv_eq_ediv h (by decide)
  have hm : Int.tmod size 2 = size % 2 := Int.tmod_eq_emod h (by decide)
  unfold sideCount columnCount
  rw [hd, hm]
  split_ifs with he <;> omega

theorem getWindowState_eq (image : PNM) (x y size : Int) (channel : Channel) (mode : Mode) :
    getWindowState image x y size channel mode
      = { window :=
            { rows := size, cols := size,
              writes := gridWrites (sample image x y channel mode) (sideCount size)
                (-columnCount size) (sideCount size) 0 (-columnCount size) },
          a := sideCount size, b := 0 } := by
  unfold getWindowState sideCount
  split_ifs with he
  · simp only [forLt_eq_iterFrom]
    rw [iterFrom_rows _ _ _ _ _ _ _ _ _ _ rfl]
    simp [Matrix.create]
  · simp only [forLe_eq_iterFrom]
    rw [iterFrom_rows _ _ _ _ _ _ _ _ _ _ rfl]
    simp [Matrix.create]

theorem mem_rowWrites (f : Int → Option Int) (a : Int) (n : Nat) (b j : Int)
    (w : (Int × Int) × Option Int) :
    w ∈ rowWrites f a n b j ↔ ∃ k : Nat, k < n ∧ w = ((a, b + k), f (j + k)) := by
  induction n generalizing b j with
  | zero => simp [rowWrites]
  | succ n ih =>
    simp only [rowWrites, List.mem_cons, ih]
    constructor
    · rintro (h | ⟨k, hk, h⟩)
      · exact ⟨0, by omega, by simpa using h⟩
      · refine ⟨k + 1, by omega, ?_⟩
        rw [h]
        push_cast
        rw [show b + 1 + (k : Int) = b + ((k : Int) + 1) by ring,
          show j + 1 + (k : Int) = j + ((k : Int) + 1) by ring]
    · rintro ⟨k, hk, h⟩
      cases k with
      | zero => exact Or.inl (by simpa using h)
      | succ k =>
        refine Or.inr ⟨k, by omega, ?_⟩
        rw [h]
        push_cast
        rw [show b + 1 + (k : Int) = b + ((k : Int) + 1) by ring,
          show j + 1 + (k : Int) = j + ((k : Int) + 1) by ring]

theorem mem_gridWrites (g : Int → Int → Option Int) (n : Nat) (j : Int) (m : Nat) (a i : Int)
    (w : (Int × Int) × Option Int) :
    w ∈ gridWrites g n j m a i
      ↔ ∃ k l : Nat, k < m ∧ l < n ∧ w = ((a + k, (l : Int)), g (i + k) (j + l)) := by
  induction m generalizing a i with
  | zero => simp [gridWrites]
  | succ m ih =>
    simp only [gridWrites, List.mem_append, ih, mem_rowWrites]
    constructor
    · rintro (⟨l, hl, h⟩ | ⟨k, l, hk, hl, h⟩)
      · exact ⟨0, l, by omega, hl, by simpa using h⟩
      · refine ⟨k + 1, l, by omega, hl, ?_⟩
        rw [h]
        push_cast
        rw [show a + 1 + (k : Int) = a + ((k : Int) + 1) by ring,
          show i + 1 + (k : Int) = i + ((k : Int) + 1) by ring]
    · rintro ⟨k, l, hk, hl, h⟩
      cases k with
      | zero => exact Or.inl ⟨l, hl, by simpa using h⟩
      | succ k =>
        refine Or.inr ⟨k, l, by omega, hl, ?_⟩
        rw [h]
        push_cast
        rw [show a + 1 + (k : Int) = a + ((k : Int) + 1) by ring,
          show i + 1 + (k : Int) = i + ((k : Int) + 1) by ring]

theorem mem_keys_gridWrites (g : Int → Int → Option Int) (n : Nat) (j : Int) (m : Nat)
    (a i : Int) (p : Int × Int) :
    p ∈ (gridWrites g n j m a i).map Prod.fst
      ↔ ∃ k l : Nat, k < m ∧ l < n ∧ p = (a + k, (l : Int)) := by
  simp only [List.mem_map, mem_gridWrites]
  constructor
  · rintro ⟨w, ⟨k, l, hk, hl, hw⟩, rfl⟩
    exact ⟨k, l, hk, hl, by rw [hw]⟩
  · rintro ⟨k, l, hk, hl, rfl⟩
    exact ⟨_, ⟨k, l, hk, hl, rfl⟩, rfl⟩

theorem nodup_keys_rowWrites (f : Int → Option Int) (a : Int) (n : Nat) (b j : Int) :
    ((rowWrites f a n b j).map Prod.fst).Nodup := by
  induction n generalizing b j with
  | zero => simp [rowWrites]
  | succ n ih =>
    simp only [rowWrites, List.map_cons, List.nodup_cons]
    refine ⟨?_, ih _ _⟩
    simp only [List.mem_map, mem_rowWrites]
    rintro ⟨w, ⟨k, _, hw⟩, h⟩
    rw [hw] at h
    simp only [Prod.mk.injEq, true_and] at h
    omega

theorem nodup_keys_gridWrites (g : Int → Int → Option Int) (n : Nat) (j : Int) (m : Nat)
    (a i : Int) : ((gridWrites g n j m a i).map Prod.fst).Nodup := by
  induction m generalizing a i with
  | zero => simp [gridWrites]
  | succ m ih =>
    simp only [gridWrites, List.map_append]
    refine List.nodup_append.2 ⟨nodup_keys_rowWrites _ _ _ _ _, ih _ _, ?_⟩
    intro p hp hq
    simp only [List.mem_map, mem_rowWrites] at hp
    rw [mem_keys_gridWrites] at hq
    obtain ⟨w, ⟨l, _, hw⟩, rfl⟩ := hp
    obtain ⟨k, l2, _, _, h⟩ := hq
    rw [hw] at h
    simp only [Prod.mk.injEq] at h
    omega

theorem get_of_writes (m : Matrix) (a b : Int) (v : Option Int)
    (hex : ∃ w ∈ m.writes, w.1 = (a, b))
    (hall : ∀ w ∈ m.writes, w.1 = (a, b) → w.2 = v) : m.get a b = v := by
  unfold Matrix.get
  cases hf : m.writes.reverse.find? (fun w => decide (w.1 = (a, b))) with
  | none =>
    exfalso
    obtain ⟨w, hw, hk⟩ := hex
    have h := List.find?_eq_none.1 hf w (List.mem_reverse.2 hw)
    simp [hk] at h
  | some w =>
    have hmem := List.mem_reverse.1 (List.mem_of_find?_eq_some hf)
    have hp := List.find?_some hf
    exact hall w hmem (by simpa using hp)

theorem getWindow_eq (image : PNM) (x y size : Int) (channel : Channel) (mode : Mode) :
    getWindow image x y size channel mode
      = { rows := size, cols := size,
          writes := gridWrites (sample image x y channel mode) (sideCount size)
            (-columnCount size) (sideCount size) 0 (-columnCount size) } := by
  unfold getWindow
  rw [getWindowState_eq]

theorem getWindow_get (image : PNM) (x y size : Int) (channel : Channel) (mode : Mode)
    (a b : Int) (ha0 : 0 ≤ a) (ha : a < size) (hb0 : 0 ≤ b) (hb : b < size) :
    (getWindow image x y size channel mode).get a b
      = (getPixel image (x - columnCount size + a) (y - columnCount size + b) mode).map
          (channelOf channel) := by
  have hs : sideCount size = size.toNat := sideCount_of_nonneg size (by omega)
  apply get_of_writes
  · refine ⟨((a, b), sample image x y channel mode (-columnCount size + a)
      (-columnCount size + b)), ?_, rfl⟩
    rw [getWindow_eq, hs]
    simp only
    rw [mem_gridWrites]
    refine ⟨a.toNat, b.toNat, by omega, by omega, ?_⟩
    rw [Int.toNat_of_nonneg ha0, Int.toNat_of_nonneg hb0, zero_add]
  · intro w hw hk
    rw [getWindow_eq, hs] at hw
    simp only at hw
    rw [mem_gridWrites] at hw
    obtain ⟨k, l, _, _, h⟩ := hw
    rw [h] at hk ⊢
    simp only [Prod.mk.injEq, zero_add] at hk
    simp only [sample]
    rw [hk.1, hk.2]
    congr 2 <;> ring

theorem length_rowWrites (f : Int → Option Int) (a : Int) (n : Nat) (b j : Int) :
    (rowWrites f a n b j).length = n := by
  induction n generalizing b j with
  | zero => rfl
  | succ n ih => simp [rowWrites, ih]

theorem length_gridWrites (g : Int → Int → Option Int) (n : Nat) (j : Int) (m : Nat)
    (a i : Int) : (gridWrites g n j m a i).length = m * n := by
  induction m generalizing a i with
  | zero => simp [gridWrites]
  | succ m ih =>
    simp only [gridWrites, List.length_append, length_rowWrites, ih]
    ring

theorem getWindowState_iterFrom (image : PNM) (x y size : Int) (channel : Channel)
    (mode : Mode) :
    getWindowState image x y size channel mode
      = iterFrom (fun i s => nextRow
          (iterFrom (fun j t => windowCell image x y channel mode i j t) (sideCount size)
            (-columnCount size) s))
          (sideCount size) (-columnCount size)
          { window := Matrix.create size size, a := 0, b := 0 } := by
  unfold getWindowState sideCount
  split_ifs with he
  · simp only [forLt_eq_iterFrom]
  · simp only [forLe_eq_iterFrom]

theorem count_eq_one_of_nodup_mem {α : Type} [BEq α] [LawfulBEq α] (a : α) (l : List α)
    (hn : l.Nodup) (hm : a ∈ l) : l.count a = 1 := by
  induction l with
  | nil => simp at hm
  | cons c l ih =>
    rw [List.nodup_cons] at hn
    rw [List.count_cons]
    rcases List.mem_cons.1 hm with h | h
    · subst h
      simp [List.count_eq_zero_of_not_mem hn.1]
    · have hne : ¬ c = a := fun e => hn.1 (e ▸ h)
      simp [ih hn.2 h, hne]

theorem columnCount_of_nonneg (size : Int) (h : 0 ≤ size) : columnCount size = size / 2 :=
  Int.tdiv_eq_ediv h (by decide)

/-! ## The claims -/

/-- C1, counterexample: on the image of width 1 and height 2 whose pixel
`(0, 1)` is white, the in-bounds coordinate `(0, 1)` resolves to white under
`NullEdge`, `RepeatEdge` and the direct mode, but `CyclicEdge` reads
`(0 % 1, 1 % 1) = (0, 0)` and returns black. -/
theorem getPixel_inBounds_cyclic_differs :
    tallImage.valid 0 1 = true
    ∧ tallImage.pixel 0 1 = some (qRgb 255 255 255)
    ∧ getPixel tallImage 0 1 Mode.NullEdge = some (qRgb 255 255 255)
    ∧ getPixel tallImage 0 1 Mode.RepeatEdge = some (qRgb 255 255 255)
    ∧ getPixel tallImage 0 1 Mode.Direct = some (qRgb 255 255 255)
    ∧ getPixel tallImage 0 1 Mode.CyclicEdge = some (qRgb 0 0 0)
    ∧ getPixel tallImage 0 1 Mode.CyclicEdge ≠ tallImage.pixel 0 1 := by
  decide

/-- C1, as amended: at an in-bounds coordinate `(x, y)` the modes `NullEdge`,
`RepeatEdge` and the direct mode return the raw pixel `image->pixel(x, y)`;
`CyclicEdge` returns the raw pixel at `(x, y % width)`, an in-bounds
coordinate, which is the raw pixel at `(x, y)` whenever `y < width`. -/
theorem getPixel_inBounds (image : PNM) (x y : Int) (hx0 : 0 ≤ x) (hx : x < image.width)
    (hy0 : 0 ≤ y) (hy : y < image.height) :
    image.pixel x y = some (image.data x y)
    ∧ getPixel image x y Mode.NullEdge = image.pixel x y
    ∧ getPixel image x y Mode.RepeatEdge = image.pixel x y
    ∧ getPixel image x y Mode.Direct = image.pixel x y
    ∧ getPixel image x y Mode.CyclicEdge = image.pixel x (Int.tmod y image.width)
    ∧ image.pixel x (Int.tmod y image.width) = some (image.data x (Int.tmod y image.width))
    ∧ (y < image.width → getPixel image x y Mode.CyclicEdge = image.pixel x y) := by
  have hw : 1 ≤ image.width := by omega
  have hcyc : getPixel image x y Mode.CyclicEdge = image.pixel x (Int.tmod y image.width) := by
    have hne : image.width ≠ 0 := by omega
    simp only [getPixel, getPixelCyclic, hne, if_false, tmod_of_bounds x image.width hx0 hx]
  refine ⟨pixel_of_inBounds image x y hx0 hx hy0 hy, ?_, ?_, rfl, hcyc, ?_, ?_⟩
  · have hg : ¬ (x > image.width - 1 ∨ y > image.height - 1 ∨ x < 0 ∨ y < 0) := by omega
    simp only [getPixel, getPixelNull, hg, if_false]
  · have h1 : ¬ x < 0 := by omega
    have h2 : ¬ x > image.width - 1 := by omega
    have h3 : ¬ y < 0 := by omega
    have h4 : ¬ y > image.height - 1 := by omega
    simp only [getPixel, getPixelRepeat, h1, h2, h3, h4, if_false]
  · have hb := tmod_bounds y image.width hy0 hw
    have hl := tmod_le_self y image.width hy0 hw
    exact pixel_of_inBounds image x _ hx0 hx hb.1 (by omega)
  · intro hyw
    rw [hcyc, tmod_of_bounds y image.width hy0 hyw]

/-- C1, witness: the amended statement applied to the example image at
`(2, 3)`. -/
theorem getPixel_inBounds_witness :
    (0 : Int) ≤ 2 ∧ (2 : Int) < exampleImage.width
    ∧ (0 : Int) ≤ 3 ∧ (3 : Int) < exampleImage.height
    ∧ getPixel exampleImage 2 3 Mode.CyclicEdge
        = exampleImage.pixel 2 (Int.tmod 3 exampleImage.width)
    ∧ getPixel exampleImage 2 3 Mode.NullEdge = exampleImage.pixel 2 3 :=
  have h := getPixel_inBounds exampleImage 2 3 (by decide) (by decide) (by decide) (by decide)
  ⟨by decide, by decide, by decide, by decide, h.2.2.2.2.1, h.2.1⟩

/-- C2: `getPixelNull(x, y)` is black `qRgb(0, 0, 0)` (the fully opaque word
`0xff000000`) when `x < 0`, `y < 0`, `x ≥ width` or `y ≥ height`, the boundary
values `x = -1`, `x = width`, `y = -1`, `y = height` included, and is the raw
pixel `image->pixel(x, y)` otherwise. -/
theorem getPixelNull_spec (image : PNM) (x y : Int) :
    ((x < 0 ∨ y < 0 ∨ x ≥ image.width ∨ y ≥ image.height) →
        getPixelNull image x y = some (qRgb 0 0 0))
    ∧ (¬ (x < 0 ∨ y < 0 ∨ x ≥ image.width ∨ y ≥ image.height) →
        getPixelNull image x y = image.pixel x y
        ∧ image.pixel x y = some (image.data x y))
    ∧ getPixelNull image (-1) y = some (qRgb 0 0 0)
    ∧ getPixelNull image image.width y = some (qRgb 0 0 0)
    ∧ getPixelNull image x (-1) = some (qRgb 0 0 0)
    ∧ getPixelNull image x image.height = some (qRgb 0 0 0)
    ∧ qRgb 0 0 0 = 0xff000000
    ∧ getPixel image x y Mode.NullEdge = getPixelNull image x y := by
  have out : ∀ u v : Int, (u < 0 ∨ v < 0 ∨ u ≥ image.width ∨ v ≥ image.height) →
      getPixelNull image u v = some (qRgb 0 0 0) := by
    intro u v h
    have hg : u > image.width - 1 ∨ v > image.height - 1 ∨ u < 0 ∨ v < 0 := by omega
    simp only [getPixelNull, hg, if_true]
  refine ⟨out x y, ?_, out _ _ (by omega), out _ _ (by omega), out _ _ (by omega),
    out _ _ (by omega), by decide, rfl⟩
  intro h
  have hg : ¬ (x > image.width - 1 ∨ y > image.height - 1 ∨ x < 0 ∨ y < 0) := by omega
  refine ⟨by simp only [getPixelNull, hg, if_false], ?_⟩
  exact pixel_of_inBounds image x y (by omega) (by omega) (by omega) (by omega)

/-- C3: on an image with `width ≥ 1` and `height ≥ 1`, `getPixelRepeat(x, y)` is
the raw pixel at `(min(max(x, 0), width-1), min(max(y, 0), height-1))`, an
in-bounds coordinate; for `x < 0` it equals `getPixelRepeat(0, y)`, for
`x ≥ width` it equals `getPixelRepeat(width-1, y)`, and symmetrically for `y`
with `height`. -/
theorem getPixelRepeat_spec (image : PNM) (x y : Int) (hw : 1 ≤ image.width)
    (hh : 1 ≤ image.height) :
    getPixelRepeat image x y
      = image.pixel (min (max x 0) (image.width - 1)) (min (max y 0) (image.height - 1))
    ∧ image.pixel (min (max x 0) (image.width - 1)) (min (max y 0) (image.height - 1))
      = some (image.data (min (max x 0) (image.width - 1)) (min (max y 0) (image.height - 1)))
    ∧ (x < 0 → getPixelRepeat image x y = getPixelRepeat image 0 y)
    ∧ (x ≥ image.width → getPixelRepeat image x y = getPixelRepeat image (image.width - 1) y)
    ∧ (y < 0 → getPixelRepeat image x y = getPixelRepeat image x 0)
    ∧ (y ≥ image.height → getPixelRepeat image x y = getPixelRepeat image x (image.height - 1))
    ∧ getPixel image x y Mode.RepeatEdge = getPixelRepeat image x y := by
  refine ⟨getPixelRepeat_eq_clamp image x y hw hh, ?_, ?_, ?_, ?_, ?_, rfl⟩
  · exact pixel_of_inBounds image _ _ (by omega) (by omega) (by omega) (by omega)
  · intro h
    rw [getPixelRepeat_eq_clamp image x y hw hh, getPixelRepeat_eq_clamp image 0 y hw hh]
    congr 1
    omega
  · intro h
    rw [getPixelRepeat_eq_clamp image x y hw hh,
      getPixelRepeat_eq_clamp image (image.width - 1) y hw hh]
    congr 1
    omega
  · intro h
    rw [getPixelRepeat_eq_clamp image x y hw hh, getPixelRepeat_eq_clamp image x 0 hw hh]
    congr 1
    omega
  · intro h
    rw [getPixelRepeat_eq_clamp image x y hw hh,
      getPixelRepeat_eq_clamp image x (image.height - 1) hw hh]
    congr 1
    omega

/-- C3, witness: the example image at `(-3, 9)`, which clamps to `(0, 3)`. -/
theorem getPixelRepeat_spec_witness :
    (1 : Int) ≤ exampleImage.width ∧ (1 : Int) ≤ exampleImage.height
    ∧ getPixelRepeat exampleImage (-3) 9
      = exampleImage.pixel (min (max (-3) 0) (exampleImage.width - 1))
          (min (max 9 0) (exampleImage.height - 1)) :=
  ⟨by decide, by decide, (getPixelRepeat_spec exampleImage (-3) 9 (by decide) (by decide)).1⟩

/-- C4, the code at the failing input: on the 4×4 example image
`getPixel(-1, 0, CyclicEdge)` reads the raw pixel at `(-1 % 4, 0 % 4) = (-1, 0)`,
which is out of bounds, whereas `getPixel(-1 + 4, 0 + 4, CyclicEdge)` reads
`(3, 0)` and returns black: the two differ. -/
theorem getPixelCyclic_negative_not_periodic :
    Int.tmod (-1) exampleImage.width = -1
    ∧ exampleImage.valid (-1) 0 = false
    ∧ getPixel exampleImage (-1) 0 Mode.CyclicEdge = none
    ∧ getPixel exampleImage (-1 + exampleImage.width) (0 + exampleImage.width) Mode.CyclicEdge
        = some (qRgb 0 0 0)
    ∧ getPixel exampleImage (-1) 0 Mode.CyclicEdge
        ≠ getPixel exampleImage (-1 + exampleImage.width) (0 + exampleImage.width)
            Mode.CyclicEdge := by
  decide

/-- C5: for every `size ≥ 1`, every centre, channel and mode, `getWindow`
returns a `size × size` matrix; every cell `(a, b)` with `0 ≤ a, b < size` is
assigned exactly once and no other cell is assigned (`size * size` assignments
in all); the two loops are their bodies applied exactly `size` times each, and
the row cursor `a`, incremented once per outer round, ends at `size`. -/
theorem getWindow_shape (image : PNM) (x y size : Int) (channel : Channel) (mode : Mode)
    (hs : 1 ≤ size) :
    (getWindow image x y size channel mode).rows = size
    ∧ (getWindow image x y size channel mode).cols = size
    ∧ (∀ a b : Int, (getWindow image x y size channel mode).written.count (a, b)
        = if 0 ≤ a ∧ a < size ∧ 0 ≤ b ∧ b < size then 1 else 0)
    ∧ (getWindow image x y size channel mode).written.length = size.toNat * size.toNat
    ∧ getWindowState image x y size channel mode
        = iterFrom (fun i s => nextRow
            (iterFrom (fun j t => windowCell image x y channel mode i j t) size.toNat
              (-columnCount size) s))
            size.toNat (-columnCount size)
            { window := Matrix.create size size, a := 0, b := 0 }
    ∧ (getWindowState image x y size channel mode).a = size
    ∧ (getWindowState image x y size channel mode).b = 0 := by
  have hc : sideCount size = size.toNat := sideCount_of_nonneg size (by omega)
  refine ⟨by rw [getWindow_eq], by rw [getWindow_eq], ?_, ?_, ?_, ?_, ?_⟩
  · intro a b
    rw [getWindow_eq, hc]
    simp only [Matrix.written]
    split_ifs with hin
    · apply count_eq_one_of_nodup_mem _ _ (nodup_keys_gridWrites _ _ _ _ _ _)
      rw [mem_keys_gridWrites]
      refine ⟨a.toNat, b.toNat, by omega, by omega, ?_⟩
      rw [Int.toNat_of_nonneg hin.1, Int.toNat_of_nonneg hin.2.2.1, zero_add]
    · apply List.count_eq_zero_of_not_mem
      rw [mem_keys_gridWrites]
      rintro ⟨k, l, hk, hl, h⟩
      simp only [Prod.mk.injEq, zero_add] at h
      omega
  · rw [getWindow_eq, hc]
    simp only [Matrix.written, List.length_map, length_gridWrites]
  · rw [getWindowState_iterFrom, hc]
  · rw [getWindowState_eq, hc]
    simp only
    omega
  · rw [getWindowState_eq]

/-- C5, witness: a window of size 4 centred far outside the example image,
under the cyclic policy. -/
theorem getWindow_shape_witness :
    (1 : Int) ≤ 4
    ∧ (getWindow exampleImage (-50) 70 4 Channel.GChannel Mode.CyclicEdge).rows = 4
    ∧ (getWindow exampleImage (-50) 70 4 Channel.GChannel Mode.CyclicEdge).cols = 4 :=
  have h := getWindow_shape exampleImage (-50) 70 4 Channel.GChannel Mode.CyclicEdge (by decide)
  ⟨by decide, h.1, h.2.1⟩

/-- C6: for every `size ≥ 1`, with `half = floor(size/2)` (the `columnCount` of
the code), cell `(a, b)` of `getWindow(x, y, size, channel, mode)` with
`0 ≤ a, b < size` is the selected channel of
`getPixel(x - half + a, y - half + b, mode)`: rows follow the x offset, columns
the y offset. The offsets `a - half` sampled on an axis are exactly
`-half .. half-1` when `size` is even and exactly `-half .. half` when it is
odd. -/
theorem getWindow_cell (image : PNM) (x y size : Int) (channel : Channel) (mode : Mode)
    (hs : 1 ≤ size) :
    columnCount size = size / 2
    ∧ (∀ a b : Int, 0 ≤ a → a < size → 0 ≤ b → b < size →
        (getWindow image x y size channel mode).get a b
          = (getPixel image (x - columnCount size + a) (y - columnCount size + b) mode).map
              (channelOf channel))
    ∧ (size % 2 = 0 → ∀ d : Int,
        (∃ a : Int, 0 ≤ a ∧ a < size ∧ d = a - columnCount size)
          ↔ (-columnCount size ≤ d ∧ d ≤ columnCount size - 1))
    ∧ (size % 2 = 1 → ∀ d : Int,
        (∃ a : Int, 0 ≤ a ∧ a < size ∧ d = a - columnCount size)
          ↔ (-columnCount size ≤ d ∧ d ≤ columnCount size)) := by
  have hc : columnCount size = size / 2 := columnCount_of_nonneg size (by omega)
  refine ⟨hc, ?_, ?_, ?_⟩
  · intro a b ha0 ha hb0 hb
    exact getWindow_get image x y size channel mode a b ha0 ha hb0 hb
  · intro he d
    rw [hc]
    constructor
    · rintro ⟨a, h0, h1, rfl⟩
      omega
    · intro h
      exact ⟨d + size / 2, by omega, by omega, by omega⟩
  · intro ho d
    rw [hc]
    constructor
    · rintro ⟨a, h0, h1, rfl⟩
      omega
    · intro h
      exact ⟨d + size / 2, by omega, by omega, by omega⟩

/-- C6, witness: for `size = 4` the half is 2, the first cell samples offset
`(-2, -2)` and the last cell `(3, 3)` samples offset `(1, 1)`. -/
theorem getWindow_cell_witness :
    (1 : Int) ≤ 4
    ∧ columnCount 4 = 2
    ∧ (getWindow exampleImage 1 1 4 Channel.LChannel Mode.RepeatEdge).get 0 0
        = (getPixel exampleImage (1 - columnCount 4 + 0) (1 - columnCount 4 + 0)
            Mode.RepeatEdge).map (channelOf Channel.LChannel)
    ∧ (getWindow exampleImage 1 1 4 Channel.LChannel Mode.RepeatEdge).get 3 3
        = (getPixel exampleImage (1 - columnCount 4 + 3) (1 - columnCount 4 + 3)
            Mode.RepeatEdge).map (channelOf Channel.LChannel) :=
  have h := getWindow_cell exampleImage 1 1 4 Channel.LChannel Mode.RepeatEdge (by decide)
  ⟨by decide, by decide, h.2.1 0 0 (by decide) (by decide) (by decide) (by decide),
    h.2.1 3 3 (by decide) (by decide) (by decide) (by decide)⟩

/-- C7: for every odd `size ≥ 1`, with `half = floor(size/2)`, cell
`(half, half)` of `getWindow(x, y, size, channel, mode)` is the selected channel
of `getPixel(x, y, mode)`, and cell `(half + d, half + e)` samples offset
`(d, e)` for every `-half ≤ d, e ≤ half`. -/
theorem getWindow_odd_centred (image : PNM) (x y size : Int) (channel : Channel) (mode : Mode)
    (hs : 1 ≤ size) (hodd : size % 2 = 1) :
    columnCount size = size / 2
    ∧ (getWindow image x y size channel mode).get (columnCount size) (columnCount size)
        = (getPixel image x y mode).map (channelOf channel)
    ∧ (∀ d e : Int, -columnCount size ≤ d → d ≤ columnCount size →
        -columnCount size ≤ e → e ≤ columnCount size →
        (getWindow image x y size channel mode).get (columnCount size + d) (columnCount size + e)
          = (getPixel image (x + d) (y + e) mode).map (channelOf channel)) := by
  have hc : columnCount size = size / 2 := columnCount_of_nonneg size (by omega)
  have key : ∀ d e : Int, -columnCount size ≤ d → d ≤ columnCount size →
      -columnCount size ≤ e → e ≤ columnCount size →
      (getWindow image x y size channel mode).get (columnCount size + d) (columnCount size + e)
        = (getPixel image (x + d) (y + e) mode).map (channelOf channel) := by
    intro d e hd0 hd he0 he
    rw [getWindow_get image x y size channel mode _ _ (by omega) (by omega) (by omega) (by omega)]
    congr 2 <;> ring
  refine ⟨hc, ?_, key⟩
  have h := key 0 0 (by omega) (by omega) (by omega) (by omega)
  simpa using h

/-- C7, witness: a window of size 5 at the corner `(3, 0)` of the example
image. -/
theorem getWindow_odd_centred_witness :
    (1 : Int) ≤ 5 ∧ (5 : Int) % 2 = 1
    ∧ (getWindow exampleImage 3 0 5 Channel.RChannel Mode.NullEdge).get (columnCount 5)
        (columnCount 5)
        = (getPixel exampleImage 3 0 Mode.NullEdge).map (channelOf Channel.RChannel) :=
  ⟨by decide, by decide,
    (getWindow_odd_centred exampleImage 3 0 5 Channel.RChannel Mode.NullEdge (by decide)
      (by decide)).2.1⟩

/-- C8, counterexample: on the image of width 2 and height 1 (so `width ≥ 1`
and `height ≥ 1`), `getPixel(0, 1, CyclicEdge)` passes `(0 % 2, 1 % 2) = (0, 1)`
to the raw lookup; that coordinate is not in-bounds (`1 ≥ height`) and no
colour is returned. -/
theorem getPixelCyclic_wide_out_of_bounds :
    (1 : Int) ≤ wideImage.width ∧ (1 : Int) ≤ wideImage.height
    ∧ Int.tmod 0 wideImage.width = 0 ∧ Int.tmod 1 wideImage.width = 1
    ∧ wideImage.valid (Int.tmod 0 wideImage.width) (Int.tmod 1 wideImage.width) = false
    ∧ getPixel wideImage 0 1 Mode.CyclicEdge = none := by
  decide

/-- C8, as amended: on an image with `width ≥ 1`, for a coordinate with
`x ≥ 0`, `y ≥ 0` and `y % width < height` (every `y ≥ 0` when
`width ≤ height`), the coordinate `(x % width, y % width)` that
`getPixel(x, y, CyclicEdge)` passes to the raw lookup is in-bounds, so a colour
is returned: the stored pixel at that coordinate. -/
theorem getPixelCyclic_total_of_nonneg (image : PNM) (x y : Int) (hw : 1 ≤ image.width)
    (hx : 0 ≤ x) (hy : 0 ≤ y) (hyh : Int.tmod y image.width < image.height) :
    image.valid (Int.tmod x image.width) (Int.tmod y image.width) = true
    ∧ getPixel image x y Mode.CyclicEdge
        = image.pixel (Int.tmod x image.width) (Int.tmod y image.width)
    ∧ getPixel image x y Mode.CyclicEdge
        = some (image.data (Int.tmod x image.width) (Int.tmod y image.width))
    ∧ (image.width ≤ image.height →
        ∀ v : Int, 0 ≤ v → Int.tmod v image.width < image.height) := by
  have hxb := tmod_bounds x image.width hx hw
  have hyb := tmod_bounds y image.width hy hw
  have hne : image.width ≠ 0 := by omega
  have hc : getPixel image x y Mode.CyclicEdge
      = image.pixel (Int.tmod x image.width) (Int.tmod y image.width) := by
    simp only [getPixel, getPixelCyclic, hne, if_false]
  refine ⟨?_, hc, ?_, ?_⟩
  · exact (valid_iff image _ _).2 ⟨hxb.1, hxb.2, hyb.1, hyh⟩
  · rw [hc]
    exact pixel_of_inBounds image _ _ hxb.1 hxb.2 hyb.1 hyh
  · intro hle v hv
    have hvb := tmod_bounds v image.width hv hw
    omega

/-- C8, witness: the example image at `(6, 9)`, read at `(2, 1)`. -/
theorem getPixelCyclic_total_of_nonneg_witness :
    (1 : Int) ≤ exampleImage.width ∧ (0 : Int) ≤ 6 ∧ (0 : Int) ≤ 9
    ∧ Int.tmod 9 exampleImage.width < exampleImage.height
    ∧ getPixel exampleImage 6 9 Mode.CyclicEdge
        = some (exampleImage.data (Int.tmod 6 exampleImage.width)
            (Int.tmod 9 exampleImage.width)) :=
  ⟨by decide, by decide, by decide, by decide,
    (getPixelCyclic_total_of_nonneg exampleImage 6 9 (by decide) (by decide) (by decide)
      (by decide)).2.2.1⟩

/-- C9: on an image with `width ≥ 1` and `height ≥ 1`, `getPixel` under
`NullEdge` and under `RepeatEdge` returns a colour for every integer
coordinate. `NullEdge` reaches the raw lookup only when its guard is false, and
then `(x, y)` is in-bounds; `RepeatEdge` always reaches it, at the clamped
coordinate, which is in-bounds. -/
theorem getPixel_null_repeat_total (image : PNM) (x y : Int) (hw : 1 ≤ image.width)
    (hh : 1 ≤ image.height) :
    (getPixel image x y Mode.NullEdge).isSome = true
    ∧ (getPixel image x y Mode.RepeatEdge).isSome = true
    ∧ ((x > image.width - 1 ∨ y > image.height - 1 ∨ x < 0 ∨ y < 0) →
        getPixel image x y Mode.NullEdge = some (qRgb 0 0 0))
    ∧ (¬ (x > image.width - 1 ∨ y > image.height - 1 ∨ x < 0 ∨ y < 0) →
        image.valid x y = true ∧ getPixel image x y Mode.NullEdge = image.pixel x y)
    ∧ image.valid (min (max x 0) (image.width - 1)) (min (max y 0) (image.height - 1)) = true
    ∧ getPixel image x y Mode.RepeatEdge
        = image.pixel (min (max x 0) (image.width - 1)) (min (max y 0) (image.height - 1)) := by
  have hrep : getPixel image x y Mode.RepeatEdge
      = image.pixel (min (max x 0) (image.width - 1)) (min (max y 0) (image.height - 1)) :=
    getPixelRepeat_eq_clamp image x y hw hh
  have hpix := pixel_of_inBounds image (min (max x 0) (image.width - 1))
    (min (max y 0) (image.height - 1)) (by omega) (by omega) (by omega) (by omega)
  have hnullOut : (x > image.width - 1 ∨ y > image.height - 1 ∨ x < 0 ∨ y < 0) →
      getPixel image x y Mode.NullEdge = some (qRgb 0 0 0) := by
    intro hg
    simp only [getPixel, getPixelNull, hg, if_true]
  have hnullIn : ¬ (x > image.width - 1 ∨ y > image.height - 1 ∨ x < 0 ∨ y < 0) →
      image.valid x y = true ∧ getPixel image x y Mode.NullEdge = image.pixel x y := by
    intro hg
    refine ⟨(valid_iff image x y).2 (by omega), ?_⟩
    simp only [getPixel, getPixelNull, hg, if_false]
  refine ⟨?_, ?_, hnullOut, hnullIn, ?_, hrep⟩
  · by_cases hg : (x > image.width - 1 ∨ y > image.height - 1 ∨ x < 0 ∨ y < 0)
    · rw [hnullOut hg]; rfl
    · rw [(hnullIn hg).2, pixel_of_inBounds image x y (by omega) (by omega) (by omega) (by omega)]
      rfl
  · rw [hrep, hpix]; rfl
  · exact (valid_iff image _ _).2 ⟨by omega, by omega, by omega, by omega⟩

/-- C9, witness: the example image at `(-7, 12)`, far outside it. -/
theorem getPixel_null_repeat_total_witness :
    (1 : Int) ≤ exampleImage.width ∧ (1 : Int) ≤ exampleImage.height
    ∧ (getPixel exampleImage (-7) 12 Mode.NullEdge).isSome = true
    ∧ (getPixel exampleImage (-7) 12 Mode.RepeatEdge).isSome = true :=
  have h := getPixel_null_repeat_total exampleImage (-7) 12 (by decide) (by decide)
  ⟨by decide, by decide, h.1, h.2.1⟩

/-- C10: on the 4×4 image that is black except for a white pixel at `(0, 0)`,
`getWindow(0, 0, 3, LChannel, NullEdge)` is a 3×3 matrix whose centre cell
`(1, 1)` is the luminance of white, `qGray(255, 255, 255) = 255`, and whose other
eight cells are 0. -/
theorem getWindow_example_nullEdge :
    (getWindow exampleImage 0 0 3 Channel.LChannel Mode.NullEdge).rows = 3
    ∧ (getWindow exampleImage 0 0 3 Channel.LChannel Mode.NullEdge).cols = 3
    ∧ qGrayRGB 255 255 255 = 255
    ∧ qGray (qRgb 255 255 255) = 255
    ∧ (getWindow exampleImage 0 0 3 Channel.LChannel Mode.NullEdge).get 1 1 = some 255
    ∧ (getWindow exampleImage 0 0 3 Channel.LChannel Mode.NullEdge).get 0 0 = some 0
    ∧ (getWindow exampleImage 0 0 3 Channel.LChannel Mode.NullEdge).get 0 1 = some 0
    ∧ (getWindow exampleImage 0 0 3 Channel.LChannel Mode.NullEdge).get 0 2 = some 0
    ∧ (getWindow exampleImage 0 0 3 Channel.LChannel Mode.NullEdge).get 1 0 = some 0
    ∧ (getWindow exampleImage 0 0 3 Channel.LChannel Mode.NullEdge).get 1 2 = some 0
    ∧ (getWindow exampleImage 0 0 3 Channel.LChannel Mode.NullEdge).get 2 0 = some 0
    ∧ (getWindow exampleImage 0 0 3 Channel.LChannel Mode.NullEdge).get 2 1 = some 0
    ∧ (getWindow exampleImage 0 0 3 Channel.LChannel Mode.NullEdge).get 2 2 = some 0
    ∧ (getWindow exampleImage 0 0 3 Channel.LChannel Mode.NullEdge).writes
        = [((0, 0), some 0), ((0, 1), some 0), ((0, 2), some 0),
           ((1, 0), some 0), ((1, 1), some 255), ((1, 2), some 0),
           ((2, 0), some 0), ((2, 1), some 0), ((2, 2), some 0)] := by
  rw [getWindow_eq]
  decide

/-! ## Helper lemmas: the parameter table -/

theorem lookup_filter_ne (l : List (String × QVariant)) (p q : String) (h : q ≠ p) :
    (l.filter (fun e => e.1 != p)).lookup q = l.lookup q := by
  induction l with
  | nil => rfl
  | cons e l ih =>
    obtain ⟨k, v⟩ := e
    by_cases hk : k = p
    · subst hk
      have hq : (q == k) = false := by simpa using h
      simp [List.filter_cons, List.lookup_cons, hq, ih]
    · have hkp : (k != p) = true := by simpa using hk
      simp only [List.filter_cons, hkp, if_true, List.lookup_cons, ih]

theorem getParameter_setParameter_same (t : Transformation) (p : String) (v : QVariant) :
    getParameter (setParameter t p v) p = v := by
  simp [getParameter, setParameter, QHash.value, QHash.insert, List.lookup_cons]

theorem getParameter_setParameter_other (t : Transformation) (p q : String) (v : QVariant)
    (h : q ≠ p) : getParameter (setParameter t p v) q = getParameter t q := by
  have hq : (q == p) = false := by simpa using h
  simp only [getParameter, setParameter, QHash.value, QHash.insert, List.lookup_cons, hq,
    lookup_filter_ne _ _ _ h]

theorem getParameter_foldl_other (ps : List (String × QVariant)) (t : Transformation)
    (q : String) (h : ∀ e ∈ ps, e.1 ≠ q) :
    getParameter (ps.foldl (fun s e => setParameter s e.1 e.2) t) q = getParameter t q := by
  induction ps generalizing t with
  | nil => rfl
  | cons e ps ih =>
    simp only [List.foldl_cons]
    rw [ih _ (fun e2 he2 => h e2 (List.mem_cons_of_mem _ he2))]
    exact getParameter_setParameter_other t e.1 q e.2
      (fun hq => h e (List.mem_cons_self _ _) hq.symm)

/-! ## Helper lemmas: samples inside and outside the image -/

theorem getPixel_of_inBounds (image : PNM) (x y : Int) (mode : Mode)
    (hm : mode ≠ Mode.CyclicEdge) (hx0 : 0 ≤ x) (hx : x < image.width) (hy0 : 0 ≤ y)
    (hy : y < image.height) : getPixel image x y mode = image.pixel x y := by
  cases mode with
  | CyclicEdge => exact absurd rfl hm
  | NullEdge =>
    have hg : ¬ (x > image.width - 1 ∨ y > image.height - 1 ∨ x < 0 ∨ y < 0) := by omega
    simp only [getPixel, getPixelNull, hg, if_false]
  | RepeatEdge =>
    have h1 : ¬ x < 0 := by omega
    have h2 : ¬ x > image.width - 1 := by omega
    have h3 : ¬ y < 0 := by omega
    have h4 : ¬ y > image.height - 1 := by omega
    simp only [getPixel, getPixelRepeat, h1, h2, h3, h4, if_false]
  | Direct => rfl

theorem getPixelNull_outside (image : PNM) (x y : Int)
    (h : x > image.width - 1 ∨ y > image.height - 1 ∨ x < 0 ∨ y < 0) :
    getPixel image x y Mode.NullEdge = some (qRgb 0 0 0) := by
  simp only [getPixel, getPixelNull, h, if_true]

theorem getPixelNull_isSome (image : PNM) (x y : Int) :
    ∃ c, getPixel image x y Mode.NullEdge = some c := by
  by_cases h : x > image.width - 1 ∨ y > image.height - 1 ∨ x < 0 ∨ y < 0
  · exact ⟨_, getPixelNull_outside image x y h⟩
  · refine ⟨image.data x y, ?_⟩
    rw [getPixel_of_inBounds image x y Mode.NullEdge (by decide) (by omega) (by omega)
      (by omega) (by omega)]
    exact pixel_of_inBounds image x y (by omega) (by omega) (by omega) (by omega)

theorem getPixelRepeat_isSome (image : PNM) (x y : Int) (hw : 1 ≤ image.width)
    (hh : 1 ≤ image.height) : ∃ c, getPixel image x y Mode.RepeatEdge = some c := by
  refine ⟨image.data (min (max x 0) (image.width - 1)) (min (max y 0) (image.height - 1)), ?_⟩
  show getPixelRepeat image x y = _
  rw [getPixelRepeat_eq_clamp image x y hw hh]
  exact pixel_of_inBounds image _ _ (by omega) (by omega) (by omega) (by omega)

theorem qRed_range (c : QRgb) : 0 ≤ qRed c ∧ qRed c ≤ 255 := by
  unfold qRed
  omega

theorem qGreen_range (c : QRgb) : 0 ≤ qGreen c ∧ qGreen c ≤ 255 := by
  unfold qGreen
  omega

theorem qBlue_range (c : QRgb) : 0 ≤ qBlue c ∧ qBlue c ≤ 255 := by
  unfold qBlue
  omega

theorem qGrayRGB_eq_ediv (r g b : Int) (hr : 0 ≤ r) (hg : 0 ≤ g) (hb : 0 ≤ b) :
    qGrayRGB r g b = (11 * r + 16 * g + 5 * b) / 32 := by
  unfold qGrayRGB
  rw [Int.tdiv_eq_ediv (by omega) (by decide)]
  congr 1
  ring

theorem qGray_range (c : QRgb) : 0 ≤ qGray c ∧ qGray c ≤ 255 := by
  have hr := qRed_range c
  have hg := qGreen_range c
  have hb := qBlue_range c
  unfold qGray
  rw [qGrayRGB_eq_ediv _ _ _ hr.1 hg.1 hb.1]
  omega

theorem channelOf_range (channel : Channel) (c : QRgb) :
    0 ≤ channelOf channel c ∧ channelOf channel c ≤ 255 := by
  cases channel
  · exact qRed_range c
  · exact qGreen_range c
  · exact qBlue_range c
  · exact qGray_range c

theorem channelOf_black (channel : Channel) : channelOf channel (qRgb 0 0 0) = 0 := by
  cases channel <;> decide

theorem rowWrites_congr (f f2 : Int → Option Int) (a : Int) (n : Nat) (b j : Int)
    (h : ∀ l : Nat, l < n → f (j + l) = f2 (j + l)) :
    rowWrites f a n b j = rowWrites f2 a n b j := by
  induction n generalizing b j with
  | zero => rfl
  | succ n ih =>
    simp only [rowWrites]
    have h0 := h 0 (by omega)
    simp only [Nat.cast_zero, add_zero] at h0
    rw [h0, ih (b + 1) (j + 1)]
    intro l hl
    have hl1 := h (l + 1) (by omega)
    push_cast at hl1
    rw [show j + 1 + (l : Int) = j + ((l : Int) + 1) by ring]
    exact hl1

theorem gridWrites_congr (g g2 : Int → Int → Option Int) (n : Nat) (j : Int) (m : Nat)
    (a i : Int)
    (h : ∀ k l : Nat, k < m → l < n → g (i + k) (j + l) = g2 (i + k) (j + l)) :
    gridWrites g n j m a i = gridWrites g2 n j m a i := by
  induction m generalizing a i with
  | zero => rfl
  | succ m ih =>
    simp only [gridWrites]
    rw [rowWrites_congr (g i) (g2 i) a n 0 j, ih (a + 1) (i + 1)]
    · intro k l hk hl
      have hkl := h (k + 1) l (by omega) hl
      push_cast at hkl
      rw [show i + 1 + (k : Int) = i + ((k : Int) + 1) by ring]
      exact hkl
    · intro l hl
      have h0 := h 0 l (by omega) hl
      simpa using h0
/-! ## The claims C11 to C20 -/

/-- C11: on the 4×4 image that is black except for a white pixel at `(0, 0)`,
`getWindow(0, 0, 3, LChannel, RepeatEdge)` has exactly the four cells `(0, 0)`,
`(0, 1)`, `(1, 0)`, `(1, 1)` equal to the luminance of white, 255, and its other
five cells equal to 0; it differs from the `NullEdge` window of the same call,
whose cell `(0, 0)` is 0. -/
theorem getWindow_example_repeatEdge :
    (getWindow exampleImage 0 0 3 Channel.LChannel Mode.RepeatEdge).rows = 3
    ∧ (getWindow exampleImage 0 0 3 Channel.LChannel Mode.RepeatEdge).cols = 3
    ∧ qGray (qRgb 255 255 255) = 255
    ∧ (getWindow exampleImage 0 0 3 Channel.LChannel Mode.RepeatEdge).get 0 0 = some 255
    ∧ (getWindow exampleImage 0 0 3 Channel.LChannel Mode.RepeatEdge).get 0 1 = some 255
    ∧ (getWindow exampleImage 0 0 3 Channel.LChannel Mode.RepeatEdge).get 1 0 = some 255
    ∧ (getWindow exampleImage 0 0 3 Channel.LChannel Mode.RepeatEdge).get 1 1 = some 255
    ∧ (getWindow exampleImage 0 0 3 Channel.LChannel Mode.RepeatEdge).get 0 2 = some 0
    ∧ (getWindow exampleImage 0 0 3 Channel.LChannel Mode.RepeatEdge).get 1 2 = some 0
    ∧ (getWindow exampleImage 0 0 3 Channel.LChannel Mode.RepeatEdge).get 2 0 = some 0
    ∧ (getWindow exampleImage 0 0 3 Channel.LChannel Mode.RepeatEdge).get 2 1 = some 0
    ∧ (getWindow exampleImage 0 0 3 Channel.LChannel Mode.RepeatEdge).get 2 2 = some 0
    ∧ (getWindow exampleImage 0 0 3 Channel.LChannel Mode.RepeatEdge).writes
        = [((0, 0), some 255), ((0, 1), some 255), ((0, 2), some 0),
           ((1, 0), some 255), ((1, 1), some 255), ((1, 2), some 0),
           ((2, 0), some 0), ((2, 1), some 0), ((2, 2), some 0)]
    ∧ (getWindow exampleImage 0 0 3 Channel.LChannel Mode.RepeatEdge).get 0 0
        ≠ (getWindow exampleImage 0 0 3 Channel.LChannel Mode.NullEdge).get 0 0
    ∧ (getWindow exampleImage 0 0 3 Channel.LChannel Mode.RepeatEdge).writes
        ≠ (getWindow exampleImage 0 0 3 Channel.LChannel Mode.NullEdge).writes := by
  simp only [getWindow_eq]
  decide

/-- C12, counterexample: `getWindow(0, 0, 0, RChannel, RepeatEdge)` on the
example image signals nothing: `size % 2 == 0` selects the first branch, whose
loops run from 0 while `i < 0`, and the 0 × 0 matrix is returned with no cell
assigned. -/
theorem getWindow_size_zero_returns :
    Int.tmod 0 2 = 0 ∧ columnCount 0 = 0
    ∧ (getWindow exampleImage 0 0 0 Channel.RChannel Mode.RepeatEdge).rows = 0
    ∧ (getWindow exampleImage 0 0 0 Channel.RChannel Mode.RepeatEdge).cols = 0
    ∧ (getWindow exampleImage 0 0 0 Channel.RChannel Mode.RepeatEdge).writes = [] := by
  simp only [getWindow_eq]
  decide

/-- C12, as amended: `getWindow` checks no argument and has no error path; with
`size = 0` it returns the empty 0 × 0 matrix for every image, centre, channel
and mode, its loops run zero times and no cell is assigned. -/
theorem getWindow_size_zero (image : PNM) (x y : Int) (channel : Channel) (mode : Mode) :
    getWindow image x y 0 channel mode = Matrix.create 0 0
    ∧ (getWindow image x y 0 channel mode).rows = 0
    ∧ (getWindow image x y 0 channel mode).cols = 0
    ∧ (getWindow image x y 0 channel mode).written = []
    ∧ sideCount 0 = 0
    ∧ (getWindowState image x y 0 channel mode).a = 0
    ∧ (getWindowState image x y 0 channel mode).b = 0 := by
  have hc : sideCount 0 = 0 := by decide
  have hw : getWindow image x y 0 channel mode = Matrix.create 0 0 := by
    rw [getWindow_eq, hc]
    rfl
  refine ⟨hw, by rw [hw]; rfl, by rw [hw]; rfl, by rw [hw]; rfl, hc, ?_, ?_⟩
  · rw [getWindowState_eq, hc]
    rfl
  · rw [getWindowState_eq]

/-- C13: `getWindow(x, y, 1, channel, mode)` is the 1 × 1 matrix whose only cell
is the selected channel of `getPixel(x, y, mode)`: one assignment, to cell
`(0, 0)`, from one sample taken at `(x, y)`. -/
theorem getWindow_size_one (image : PNM) (x y : Int) (channel : Channel) (mode : Mode) :
    (getWindow image x y 1 channel mode).rows = 1
    ∧ (getWindow image x y 1 channel mode).cols = 1
    ∧ (getWindow image x y 1 channel mode).writes
        = [((0, 0), (getPixel image x y mode).map (channelOf channel))]
    ∧ (getWindow image x y 1 channel mode).get 0 0
        = (getPixel image x y mode).map (channelOf channel) := by
  have hc : sideCount 1 = 1 := by decide
  have hcc : columnCount 1 = 0 := by decide
  have hw : getWindow image x y 1 channel mode
      = { rows := 1, cols := 1,
          writes := [((0, 0), (getPixel image x y mode).map (channelOf channel))] } := by
    rw [getWindow_eq, hc, hcc]
    simp [gridWrites, rowWrites, sample]
  refine ⟨by rw [hw], by rw [hw], by rw [hw], ?_⟩
  rw [hw]
  simp [Matrix.get]

/-- C14: the base `transform()` returns the image the transformation holds when
the pointer is not null, and a new null `PNM` (width 0, height 0, no pixel)
when it is null; it returns in both cases, also after parameters were set. -/
theorem transform_spec (t : Transformation) (image : PNM) :
    transform (Transformation.create (some image)) = image
    ∧ transform (Transformation.create none) = PNM.null
    ∧ (t.image = some image → transform t = image)
    ∧ (t.image = none → transform t = PNM.null)
    ∧ (∀ (p : String) (v : QVariant), transform (setParameter t p v) = transform t)
    ∧ PNM.null.width = 0 ∧ PNM.null.height = 0
    ∧ (∀ u v : Int, PNM.null.pixel u v = none) := by
  refine ⟨rfl, rfl, ?_, ?_, fun _ _ => rfl, rfl, rfl, ?_⟩
  · intro h
    simp only [transform, h]
  · intro h
    simp only [transform, h]
  · intro u v
    have hv : PNM.null.valid u v = false := by
      simp only [PNM.valid, PNM.null]
      by_cases h0 : 0 ≤ u
      · have h1 : ¬ u < 0 := by omega
        simp [h1]
      · simp [h0]
    simp [PNM.pixel, hv]

/-- C15: after `setParameter(p, v)`, `getParameter(p)` returns `v`, also when
`p` was set before; `getParameter(q)` for a key `q ≠ p` is unchanged; and
`getParameter` of a key that was never set, on a fresh transformation or after
any sequence of `setParameter` calls on other keys, returns the invalid
`QVariant()`. -/
theorem parameter_store_spec (t : Transformation) (p q : String) (v : QVariant) :
    getParameter (setParameter t p v) p = v
    ∧ (∀ w : QVariant, getParameter (setParameter (setParameter t p w) p v) p = v)
    ∧ (q ≠ p → getParameter (setParameter t p v) q = getParameter t q)
    ∧ (∀ image : Option PNM, getParameter (Transformation.create image) q = QVariant.invalid)
    ∧ (∀ (image : Option PNM) (ps : List (String × QVariant)), (∀ e ∈ ps, e.1 ≠ q) →
        getParameter (ps.foldl (fun s e => setParameter s e.1 e.2) (Transformation.create image)) q
          = QVariant.invalid)
    ∧ (setParameter t p v).image = t.image := by
  refine ⟨getParameter_setParameter_same t p v,
    fun w => getParameter_setParameter_same _ p v,
    getParameter_setParameter_other t p q v, fun _ => rfl, ?_, rfl⟩
  intro image ps h
  rw [getParameter_foldl_other ps _ q h]
  rfl
/-- C16: on a square image (`width = height ≥ 1`), for `x ≥ 0` and `y ≥ 0`,
`getPixel(x, y, CyclicEdge)` is the raw pixel at `(x mod width, y mod height)`,
and that coordinate is in-bounds. -/
theorem getPixelCyclic_square (image : PNM) (x y : Int) (hw : 1 ≤ image.width)
    (hsq : image.width = image.height) (hx : 0 ≤ x) (hy : 0 ≤ y) :
    getPixel image x y Mode.CyclicEdge = image.pixel (x % image.width) (y % image.height)
    ∧ image.valid (x % image.width) (y % image.height) = true
    ∧ getPixel image x y Mode.CyclicEdge
        = some (image.data (x % image.width) (y % image.height)) := by
  have hne : image.width ≠ 0 := by omega
  have ex : Int.tmod x image.width = x % image.width := Int.tmod_eq_emod hx (by omega)
  have ey : Int.tmod y image.width = y % image.height := by
    rw [Int.tmod_eq_emod hy (by omega), hsq]
  have hxb := tmod_bounds x image.width hx hw
  have hyb := tmod_bounds y image.width hy hw
  rw [ex] at hxb
  rw [ey] at hyb
  have hc : getPixel image x y Mode.CyclicEdge
      = image.pixel (x % image.width) (y % image.height) := by
    simp only [getPixel, getPixelCyclic, hne, if_false, ex, ey]
  refine ⟨hc, ?_, ?_⟩
  · exact (valid_iff image _ _).2 ⟨hxb.1, hxb.2, hyb.1, by omega⟩
  · rw [hc]
    exact pixel_of_inBounds image _ _ hxb.1 hxb.2 hyb.1 (by omega)

/-- C16, witness: the 4×4 example image at `(6, 9)`, read at `(2, 1)`. -/
theorem getPixelCyclic_square_witness :
    (1 : Int) ≤ exampleImage.width ∧ exampleImage.width = exampleImage.height
    ∧ (0 : Int) ≤ 6 ∧ (0 : Int) ≤ 9
    ∧ getPixel exampleImage 6 9 Mode.CyclicEdge
        = exampleImage.pixel (6 % exampleImage.width) (9 % exampleImage.height) :=
  ⟨by decide, by decide, by decide, by decide,
    (getPixelCyclic_square exampleImage 6 9 (by decide) (by decide) (by decide) (by decide)).1⟩

/-- C17: the red, green and blue components of every colour lie in `[0, 255]`,
and `qGray` is `(11·r + 16·g + 5·b) / 32` with integer division; so on a
non-empty image, for every `size ≥ 1`, centre, channel and each of `NullEdge`
and `RepeatEdge`, every cell of `getWindow` holds an integer in `[0, 255]`. -/
theorem getWindow_cell_range (image : PNM) (x y size : Int) (channel : Channel) (mode : Mode)
    (a b : Int) (hw : 1 ≤ image.width) (hh : 1 ≤ image.height) (_hs : 1 ≤ size)
    (hm : mode = Mode.NullEdge ∨ mode = Mode.RepeatEdge)
    (ha0 : 0 ≤ a) (ha : a < size) (hb0 : 0 ≤ b) (hb : b < size) :
    (∃ v : Int, (getWindow image x y size channel mode).get a b = some v ∧ 0 ≤ v ∧ v ≤ 255)
    ∧ (∀ c : QRgb, 0 ≤ qRed c ∧ qRed c ≤ 255 ∧ 0 ≤ qGreen c ∧ qGreen c ≤ 255
        ∧ 0 ≤ qBlue c ∧ qBlue c ≤ 255)
    ∧ (∀ c : QRgb, qGray c = (11 * qRed c + 16 * qGreen c + 5 * qBlue c) / 32) := by
  refine ⟨?_, ?_, ?_⟩
  · have hsome : ∃ c, getPixel image (x - columnCount size + a) (y - columnCount size + b) mode
        = some c := by
      rcases hm with h | h
      · rw [h]
        exact getPixelNull_isSome image _ _
      · rw [h]
        exact getPixelRepeat_isSome image _ _ hw hh
    obtain ⟨c, hc⟩ := hsome
    refine ⟨channelOf channel c, ?_, (channelOf_range channel c).1, (channelOf_range channel c).2⟩
    rw [getWindow_get image x y size channel mode a b ha0 ha hb0 hb, hc]
    rfl
  · intro c
    exact ⟨(qRed_range c).1, (qRed_range c).2, (qGreen_range c).1, (qGreen_range c).2,
      (qBlue_range c).1, (qBlue_range c).2⟩
  · intro c
    exact qGrayRGB_eq_ediv _ _ _ (qRed_range c).1 (qGreen_range c).1 (qBlue_range c).1

/-- C17, witness: the luminance window of size 3 at the corner of the example
image under `RepeatEdge`, cell `(2, 0)`. -/
theorem getWindow_cell_range_witness :
    (1 : Int) ≤ exampleImage.width ∧ (1 : Int) ≤ exampleImage.height ∧ (1 : Int) ≤ 3
    ∧ (∃ v : Int,
        (getWindow exampleImage 0 0 3 Channel.LChannel Mode.RepeatEdge).get 2 0 = some v
        ∧ 0 ≤ v ∧ v ≤ 255) :=
  ⟨by decide, by decide, by decide,
    (getWindow_cell_range exampleImage 0 0 3 Channel.LChannel Mode.RepeatEdge 2 0 (by decide)
      (by decide) (by decide) (Or.inr rfl) (by decide) (by decide) (by decide) (by decide)).1⟩

/-- C18: for every `size ≥ 1`, with `half = floor(size/2)`, and every centre
whose window lies wholly inside the image (`half ≤ x`, `x + half ≤ width - 1`,
`half ≤ y`, `y + half ≤ height - 1`), `getWindow(x, y, size, channel, mode)` is
the same matrix under `NullEdge`, `RepeatEdge` and the direct mode, for every
channel. -/
theorem getWindow_interior (image : PNM) (x y size : Int) (channel : Channel)
    (hs : 1 ≤ size) (hx0 : columnCount size ≤ x) (hx1 : x + columnCount size ≤ image.width - 1)
    (hy0 : columnCount size ≤ y) (hy1 : y + columnCount size ≤ image.height - 1) :
    columnCount size = size / 2
    ∧ getWindow image x y size channel Mode.NullEdge
        = getWindow image x y size channel Mode.Direct
    ∧ getWindow image x y size channel Mode.RepeatEdge
        = getWindow image x y size channel Mode.Direct
    ∧ getWindow image x y size channel Mode.NullEdge
        = getWindow image x y size channel Mode.RepeatEdge := by
  have hc : columnCount size = size / 2 := columnCount_of_nonneg size (by omega)
  have hn : sideCount size = size.toNat := sideCount_of_nonneg size (by omega)
  have key : ∀ mode : Mode, mode ≠ Mode.CyclicEdge →
      getWindow image x y size channel mode = getWindow image x y size channel Mode.Direct := by
    intro mode hm
    rw [getWindow_eq, getWindow_eq]
    congr 1
    apply gridWrites_congr
    intro k l hk hl
    rw [hn] at hk hl
    simp only [sample]
    rw [getPixel_of_inBounds image _ _ mode hm (by omega) (by omega) (by omega) (by omega),
      getPixel_of_inBounds image _ _ Mode.Direct (by decide) (by omega) (by omega) (by omega)
        (by omega)]
  have h1 := key Mode.NullEdge (by decide)
  have h2 := key Mode.RepeatEdge (by decide)
  exact ⟨hc, h1, h2, h1.trans h2.symm⟩

/-- C18, witness: the window of size 3 centred at `(1, 2)` of the 4×4 example
image. -/
theorem getWindow_interior_witness :
    (1 : Int) ≤ 3 ∧ columnCount 3 ≤ 1 ∧ 1 + columnCount 3 ≤ exampleImage.width - 1
    ∧ columnCount 3 ≤ 2 ∧ 2 + columnCount 3 ≤ exampleImage.height - 1
    ∧ getWindow exampleImage 1 2 3 Channel.BChannel Mode.NullEdge
        = getWindow exampleImage 1 2 3 Channel.BChannel Mode.RepeatEdge :=
  ⟨by decide, by decide, by decide, by decide, by decide,
    (getWindow_interior exampleImage 1 2 3 Channel.BChannel (by decide) (by decide) (by decide)
      (by decide) (by decide)).2.2.2⟩

/-- C19: for every `size ≥ 2`, centre, channel and mode, cell `(a, b)` of
`getWindow(x + 1, y, ...)` equals cell `(a + 1, b)` of `getWindow(x, y, ...)` for
`0 ≤ a < size - 1`, `0 ≤ b < size`, and cell `(a, b)` of `getWindow(x, y + 1, ...)`
equals cell `(a, b + 1)` of `getWindow(x, y, ...)` for `0 ≤ a < size`,
`0 ≤ b < size - 1`. -/
theorem getWindow_slide (image : PNM) (x y size : Int) (channel : Channel) (mode : Mode)
    (_hs : 2 ≤ size) :
    (∀ a b : Int, 0 ≤ a → a < size - 1 → 0 ≤ b → b < size →
        (getWindow image (x + 1) y size channel mode).get a b
          = (getWindow image x y size channel mode).get (a + 1) b)
    ∧ (∀ a b : Int, 0 ≤ a → a < size → 0 ≤ b → b < size - 1 →
        (getWindow image x (y + 1) size channel mode).get a b
          = (getWindow image x y size channel mode).get a (b + 1)) := by
  constructor
  · intro a b ha0 ha hb0 hb
    rw [getWindow_get image (x + 1) y size channel mode a b ha0 (by omega) hb0 hb,
      getWindow_get image x y size channel mode (a + 1) b (by omega) (by omega) hb0 hb]
    congr 2
    ring
  · intro a b ha0 ha hb0 hb
    rw [getWindow_get image x (y + 1) size channel mode a b ha0 ha hb0 (by omega),
      getWindow_get image x y size channel mode a (b + 1) ha0 ha (by omega) (by omega)]
    congr 2
    ring

/-- C19, witness: windows of size 4 on the example image, centres `(1, 1)` and
`(2, 1)`, cells `(0, 3)` and `(1, 3)`. -/
theorem getWindow_slide_witness :
    (2 : Int) ≤ 4
    ∧ (getWindow exampleImage (1 + 1) 1 4 Channel.LChannel Mode.RepeatEdge).get 0 3
        = (getWindow exampleImage 1 1 4 Channel.LChannel Mode.RepeatEdge).get (0 + 1) 3 :=
  ⟨by decide,
    (getWindow_slide exampleImage 1 1 4 Channel.LChannel Mode.RepeatEdge (by decide)).1 0 3
      (by decide) (by decide) (by decide) (by decide)⟩

/-- C20: for every image, every `size ≥ 1` with `half = floor(size/2)` and every
centre with `x + half < 0`, `x - half > width - 1`, `y + half < 0` or
`y - half > height - 1`, every cell of `getWindow(x, y, size, channel, NullEdge)`
is 0 for every channel; the guard of `getPixelNull` holds at every sampled
coordinate, so the raw lookup is never reached and the window does not depend
on the stored pixels. -/
theorem getWindow_outside_nullEdge (image : PNM) (x y size : Int) (channel : Channel)
    (hs : 1 ≤ size)
    (hout : x + columnCount size < 0 ∨ x - columnCount size > image.width - 1
      ∨ y + columnCount size < 0 ∨ y - columnCount size > image.height - 1) :
    columnCount size = size / 2
    ∧ (∀ a b : Int, 0 ≤ a → a < size → 0 ≤ b → b < size →
        (getWindow image x y size channel Mode.NullEdge).get a b = some 0
        ∧ (x - columnCount size + a > image.width - 1 ∨ y - columnCount size + b > image.height - 1
            ∨ x - columnCount size + a < 0 ∨ y - columnCount size + b < 0))
    ∧ (∀ data2 : Int → Int → QRgb,
        getWindow { width := image.width, height := image.height, data := data2 } x y size
            channel Mode.NullEdge
          = getWindow image x y size channel Mode.NullEdge) := by
  have hc : columnCount size = size / 2 := columnCount_of_nonneg size (by omega)
  have hn : sideCount size = size.toNat := sideCount_of_nonneg size (by omega)
  refine ⟨hc, ?_, ?_⟩
  · intro a b ha0 ha hb0 hb
    have hg : x - columnCount size + a > image.width - 1
        ∨ y - columnCount size + b > image.height - 1
        ∨ x - columnCount size + a < 0 ∨ y - columnCount size + b < 0 := by omega
    refine ⟨?_, hg⟩
    rw [getWindow_get image x y size channel Mode.NullEdge a b ha0 ha hb0 hb,
      getPixelNull_outside image _ _ hg]
    show some (channelOf channel (qRgb 0 0 0)) = some 0
    rw [channelOf_black]
  · intro data2
    rw [getWindow_eq, getWindow_eq]
    congr 1
    apply gridWrites_congr
    intro k l hk hl
    rw [hn] at hk hl
    simp only [sample]
    rw [getPixelNull_outside image _ _ (by omega),
      getPixelNull_outside { width := image.width, height := image.height, data := data2 } _ _
        (by simp only; omega)]

/-- C20, witness: a window of size 3 centred at `(-2, 1)`, left of the example
image. -/
theorem getWindow_outside_nullEdge_witness :
    (1 : Int) ≤ 3
    ∧ (-2 + columnCount 3 < 0 ∨ -2 - columnCount 3 > exampleImage.width - 1
        ∨ 1 + columnCount 3 < 0 ∨ 1 - columnCount 3 > exampleImage.height - 1)
    ∧ (getWindow exampleImage (-2) 1 3 Channel.GChannel Mode.NullEdge).get 2 2 = some 0 :=
  ⟨by decide, by decide,
    ((getWindow_outside_nullEdge exampleImage (-2) 1 3 Channel.GChannel (by decide)
      (by decide)).2.1 2 2 (by decide) (by decide) (by decide) (by decide)).1⟩

end MyGimp
